import Mathlib

/-
Verification of the NRO-stats merge core (merge-nrostats.py).

The development shallowly embeds the address-block decomposition
(`add_v4_block_to_radix`), the radix-tree insertion (`add_prefix_to_radix`),
the line filter of `parse_nro_stats`, and the output-row construction of
`main`.  Python integers are modelled as `Nat`/`Int`; the floating-point
`int(math.log(addrcount, 2))` and `int(math.pow(2, 32 - prefix_size))` are
modelled as exact integer floor-log and power.  The `ipaddress` checks are
modelled arithmetically: `IPv4Network(a/s)` construction succeeds iff
`0 ≤ s ≤ 32` and `a` is a multiple of `2 ^ (32 - s)`, and
`IPv4Address + n` raises `AddressValueError` iff the result is `≥ 2^32`.
-/

set_option maxRecDepth 40000
set_option linter.unusedSectionVars false

namespace NroStats

/-- One component of a Python tuple attached to a radix node: the source
stores heterogeneous tuples of strings and ints. -/
inductive Field where
  | str (v : String)
  | int (v : Int)
deriving DecidableEq

/-- A `prefix_info` tuple (plus the per-fragment extension) is a list of
fields, mirroring the positional Python tuple. -/
abbrev Info := List Field

/-- The tuple built in `parse_nro_stats`:
`(fields[0], fields[1], fields[5], fields[6], fields[3], int(fields[4]))`,
that is (registry, country, modification date, status, original block start,
original block address count). -/
def prefix_info (registry country date status blockStart : String)
    (blockCount : Int) : Info :=
  [Field.str registry, Field.str country, Field.str date, Field.str status,
   Field.str blockStart, Field.int blockCount]

/-- Exact key of an IPv4 radix node: numeric network address and the
(signed, as in Python) prefix length. -/
structure V4Key where
  addr : Nat
  len : Int
deriving DecidableEq

/-- Exact key of an IPv6 radix node: the textual start address from the
input line and the prefix length, as formatted by `'{}/{}'.format`. -/
structure V6Key where
  addrStr : String
  len : Int
deriving DecidableEq

/-- A radix tree restricted to what the script uses: a finite collection of
exact-prefix nodes, each holding its `data['info']` list.  Nodes are kept in
insertion order; iteration order is produced separately (see `sortNodes`). -/
abbrev Radix (κ : Type) := List (κ × List Info)

/-- `add_prefix_to_radix`: look up the exact prefix; if absent, add a fresh
node; in both cases append `prefix_info` to the node's `info` list.  (The
already-present case is the one the source logs with a non-fatal
`Warning: ... already in radix tree`.) -/
def add_prefix_to_radix {κ : Type} [DecidableEq κ] :
    Radix κ → κ → Info → Radix κ
  | [], k, e => [(k, [e])]
  | n :: t, k, e =>
    if n.1 = k then (n.1, n.2 ++ [e]) :: t
    else n :: add_prefix_to_radix t k e

/-- Insert a batch of (prefix, info) pairs in order. -/
def insertPairs {κ : Type} [DecidableEq κ] (t : Radix κ)
    (ps : List (κ × Info)) : Radix κ :=
  ps.foldl (fun acc p => add_prefix_to_radix acc p.1 p.2) t

/-- Insert one node into a list sorted by `le` (helper for `sortNodes`). -/
def sortInsert {κ : Type} (le : κ → κ → Bool) (n : κ × List Info) :
    Radix κ → Radix κ
  | [] => [n]
  | m :: ms => if le n.1 m.1 then n :: m :: ms else m :: sortInsert le n ms

/-- Modelled from the spec: py-radix iteration (`for rnode in radix`) is not
part of this repository; per the spec it yields the nodes in ascending
numeric prefix order (pre-order over the bit trie, 0-branch before
1-branch, parent before child).  We model it by sorting the node list. -/
def sortNodes {κ : Type} (le : κ → κ → Bool) : Radix κ → Radix κ
  | [] => []
  | n :: ns => sortInsert le n (sortNodes le ns)

/-- Ascending numeric prefix order on IPv4 keys: for bit-aligned prefixes,
most-significant-bit-first pre-order coincides with ordering by numeric
address and then by prefix length (parent before child). -/
def v4KeyLe (a b : V4Key) : Bool :=
  decide (a.addr < b.addr) || (decide (a.addr = b.addr) && decide (a.len ≤ b.len))

/-- Deterministic order on IPv6 keys (textual address, then length).  Only
determinism matters for the claims below, not the concrete order. -/
def v6KeyLe (a b : V6Key) : Bool :=
  decide (a.addrStr < b.addrStr) ||
    (decide (a.addrStr = b.addrStr) && decide (a.len ≤ b.len))

/-- Flatten a node list to (prefix, info) rows, node by node, preserving the
per-node attachment order (the inner `for info in rnode.data['info']`). -/
def nodePairs {κ : Type} : Radix κ → List (κ × Info)
  | [] => []
  | n :: t => n.2.map (fun e => (n.1, e)) ++ nodePairs t

/-- The flattened IPv4 output row source: trie iteration order, then the
per-node info list. -/
def v4Iterate (t : Radix V4Key) : List (V4Key × Info) :=
  nodePairs (sortNodes v4KeyLe t)

/-- The flattened IPv6 output row source. -/
def v6Iterate (t : Radix V6Key) : List (V6Key × Info) :=
  nodePairs (sortNodes v6KeyLe t)

/-- Exact floor of `log2`, fuel-based so that it evaluates by kernel
reduction; models `int(math.log(n, 2))` for `n ≥ 1` (assuming exact
floating-point logarithms, as the spec's algorithm description does). -/
def floorLog2Aux : Nat → Nat → Nat
  | 0, _ => 0
  | fuel + 1, n => if 2 ≤ n then floorLog2Aux fuel (n / 2) + 1 else 0

/-- Floor of the base-2 logarithm (0 for inputs below 2). -/
def floorLog2 (n : Nat) : Nat := floorLog2Aux n n

/-- Success of `ipaddress.IPv4Network('{a}/{s}')` with strict host-bit
checking: the length is an integer in [0, 32] and the address is a multiple
of the block size. -/
def sizeOk (a : Nat) (s : Int) : Bool :=
  decide (0 ≤ s) && decide (s ≤ 32) && decide (a % 2 ^ (32 - s).toNat = 0)

/-- The inner `while not prefix_found` loop of `add_v4_block_to_radix`:
starting from the candidate length, increment until `IPv4Network` accepts
the prefix.  Fuel-based; callers pass enough fuel to reach `/32`, which is
always accepted. -/
def findSize (a : Nat) : Int → Nat → Int
  | s, 0 => s
  | s, fuel + 1 => if sizeOk a s then s else findSize a (s + 1) fuel

/-- The prefix length selected by one iteration of the outer loop of
`add_v4_block_to_radix` at state (address `a`, remaining count `c`):
`prefix_size = 32 - int(math.log(addrcount, 2))`, then the alignment
search. -/
def stepS (a : Nat) (c : Int) : Int :=
  findSize a (32 - (floorLog2 c.toNat : Int)) (floorLog2 c.toNat + 1)

/-- The block size emitted by one iteration:
`used_addrcount = int(math.pow(2, 32 - prefix_size))`. -/
def stepUsed (a : Nat) (c : Int) : Nat :=
  2 ^ (32 - stepS a c).toNat

/-- One emitted CIDR fragment: network address, prefix length, and
`used_addrcount`. -/
structure Frag where
  addr : Nat
  len : Int
  used : Nat
deriving DecidableEq

/-- The outer `while addrcount > 0` loop of `add_v4_block_to_radix`,
returning the fragments emitted (in emission order) and whether
`prefix_addr += used_addrcount` raised `AddressValueError` by leaving the
IPv4 address space.  Fragments emitted before the error are kept, because
the source inserts each fragment into the radix tree before advancing.
`none` means the fuel ran out (shown below never to happen for
`fuel ≥ addrcount`). -/
def add_v4_block_loop (a : Nat) (c : Int) : Nat → Option (List Frag × Bool)
  | 0 => if c ≤ 0 then some ([], false) else none
  | fuel + 1 =>
    if c ≤ 0 then some ([], false)
    else
      if 2 ^ 32 ≤ a + stepUsed a c then
        some ([⟨a, stepS a c, stepUsed a c⟩], true)
      else
        match add_v4_block_loop (a + stepUsed a c) (c - (stepUsed a c : Int)) fuel with
        | none => none
        | some (fs, e) => some (⟨a, stepS a c, stepUsed a c⟩ :: fs, e)

/-- `add_v4_block_to_radix`: run the decomposition loop and insert every
emitted fragment with `prefix_info + (used_addrcount,)` attached.  The
boolean reports whether the record's ingest raised (the exception
propagates to `main` in the source; the tree keeps the fragments inserted
before the raise). -/
def add_v4_block_to_radix (t : Radix V4Key) (a : Nat) (c : Int)
    (info : Info) : Radix V4Key × Bool :=
  match add_v4_block_loop a c c.toNat with
  | some (fs, e) =>
    (insertPairs t (fs.map (fun f => (⟨f.addr, f.len⟩, info ++ [Field.int (f.used : Int)]))), e)
  | none => (t, true)

/-- A record accepted by `parse_nro_stats`, after field extraction: an IPv4
record carries the numeric start address (`ipaddress.ip_address(fields[3])`)
and the address count `int(fields[4])`; an IPv6 record carries its textual
prefix key.  Both carry the attached `prefix_info` tuple. -/
inductive SrcRec where
  | v4 (a : Nat) (c : Int) (info : Info)
  | v6 (k : V6Key) (info : Info)
deriving DecidableEq

/-- Process one record against the pair of radix trees, reporting whether
its ingest raised. -/
def ingestRec (st : Radix V4Key × Radix V6Key) :
    SrcRec → (Radix V4Key × Radix V6Key) × Bool
  | .v4 a c i =>
    let r := add_v4_block_to_radix st.1 a c i
    ((r.1, st.2), r.2)
  | .v6 k i => ((st.1, add_prefix_to_radix st.2 k i), false)

/-- Process a record sequence; an exception aborts the processing of all
later records, as it does in the source (it propagates out of
`parse_nro_stats` into `main`'s catch-all). -/
def ingestAll (st : Radix V4Key × Radix V6Key) :
    List SrcRec → (Radix V4Key × Radix V6Key) × Bool
  | [] => (st, false)
  | r :: rs =>
    let p := ingestRec st r
    if p.2 then (p.1, true) else ingestAll p.1 rs

/-- Whether ingesting a record raises (independent of the tree state). -/
def recErr : SrcRec → Bool
  | .v4 a c _ =>
    match add_v4_block_loop a c c.toNat with
    | some (_, e) => e
    | none => true
  | .v6 _ _ => false

/-- The (prefix, info) pairs a record contributes to the IPv4 tree. -/
def recPairsV4 : SrcRec → List (V4Key × Info)
  | .v4 a c i =>
    match add_v4_block_loop a c c.toNat with
    | some (fs, _) =>
      fs.map (fun f => (⟨f.addr, f.len⟩, i ++ [Field.int (f.used : Int)]))
    | none => []
  | .v6 _ _ => []

/-- The (prefix, info) pairs a record contributes to the IPv6 tree. -/
def recPairsV6 : SrcRec → List (V6Key × Info)
  | .v4 _ _ _ => []
  | .v6 k i => [(k, i)]

/-- Concatenation helper for per-record contributions. -/
def concatPairs {α : Type} : List (List α) → List α
  | [] => []
  | l :: ls => l ++ concatPairs ls

/-- Positional access into an info tuple, as `info[i]` in `main`. -/
def infoAt (info : Info) (i : Nat) : Field :=
  info.getD i (Field.str "")

/-- The IPv4 output row written by `main`: the format call receives
`(prefix, rir, country, date, prefix_status, block_start, block_ip_count)`
where the local variables were read as `rir = info[0]`, `date = info[1]`,
`country = info[2]`, `prefix_status = info[3]`, `block_start = info[4]`,
`block_ip_count = info[5]`. -/
def v4Row (pfx : String) (info : Info) : List Field :=
  [Field.str pfx, infoAt info 0, infoAt info 2, infoAt info 1,
   infoAt info 3, infoAt info 4, infoAt info 5]

/-- The IPv6 output row written by `main`, same variable shuffle, first
five columns only. -/
def v6Row (pfx : String) (info : Info) : List Field :=
  [Field.str pfx, infoAt info 0, infoAt info 2, infoAt info 1, infoAt info 3]

/-- Python `str.strip(c)` on a character list: remove every leading and
trailing occurrence of `c`. -/
def pyStripChar (c : Char) (l : List Char) : List Char :=
  ((l.dropWhile (fun x => x == c)).reverse.dropWhile (fun x => x == c)).reverse

/-- `line.strip('\r').strip('\n')` from `parse_nro_stats`. -/
def cleanLine (s : String) : String :=
  String.mk (pyStripChar '\n' (pyStripChar '\r' s.data))

/-- `line.split('|')` after stripping. -/
def lineFields (s : String) : List String :=
  (cleanLine s).splitOn "|"

/-- One iteration of the `for line in fd` loop of `parse_nro_stats`, with
the record handling abstracted: a line is skipped (`continue`, state
untouched) iff `len(fields) < 7 or (fields[2] != 'ipv4' and fields[2] !=
'ipv6')`. -/
def parseLineStep {σ : Type} (handle : List String → σ → σ) (st : σ)
    (line : String) : σ :=
  if (lineFields line).length < 7 ||
      ((lineFields line).getD 2 "" != "ipv4" &&
       (lineFields line).getD 2 "" != "ipv6") then st
  else handle (lineFields line) st

/-- Contiguous exact coverage: the fragments tile `[a, a + c)` in order,
each block nonempty, with no gap and no overlap, ending exactly at
`a + c`. -/
def coversChain : List Frag → Nat → Nat → Prop
  | [], _, c => c = 0
  | f :: fs, a, c =>
    f.addr = a ∧ 1 ≤ f.used ∧ f.used ≤ c ∧ coversChain fs (a + f.used) (c - f.used)

/-! ### Arithmetic facts about the decomposition -/

theorem floorLog2Aux_spec : ∀ (fuel n : Nat), 1 ≤ n → n ≤ fuel →
    2 ^ floorLog2Aux fuel n ≤ n ∧ n < 2 ^ (floorLog2Aux fuel n + 1) := by
  intro fuel
  induction fuel with
  | zero => intro n h1 h2; omega
  | succ fuel ih =>
    intro n h1 h2
    rw [floorLog2Aux]
    by_cases h : 2 ≤ n
    · rw [if_pos h]
      have hrec := ih (n / 2) (by omega) (by omega)
      have e1 : 2 ^ (floorLog2Aux fuel (n / 2) + 1) = 2 * 2 ^ floorLog2Aux fuel (n / 2) := by
        ring
      have e2 : 2 ^ (floorLog2Aux fuel (n / 2) + 1 + 1) =
          2 * 2 ^ (floorLog2Aux fuel (n / 2) + 1) := by ring
      omega
    · rw [if_neg h]
      have : n = 1 := by omega
      subst this
      norm_num

theorem floorLog2_le {n : Nat} (h : 1 ≤ n) : 2 ^ floorLog2 n ≤ n :=
  (floorLog2Aux_spec n n h le_rfl).1

theorem lt_floorLog2_succ {n : Nat} (h : 1 ≤ n) : n < 2 ^ (floorLog2 n + 1) :=
  (floorLog2Aux_spec n n h le_rfl).2

theorem findSize_ge (a : Nat) : ∀ (fuel : Nat) (s : Int), s ≤ findSize a s fuel := by
  intro fuel
  induction fuel with
  | zero => intro s; exact le_rfl
  | succ fuel ih =>
    intro s
    rw [findSize]
    by_cases h : sizeOk a s = true
    · rw [if_pos h]
    · rw [if_neg h]
      exact le_trans (by omega) (ih (s + 1))

theorem findSize_found (a : Nat) : ∀ (fuel : Nat) (s : Int),
    (∃ k : Nat, k < fuel ∧ sizeOk a (s + k) = true) →
    sizeOk a (findSize a s fuel) = true := by
  intro fuel
  induction fuel with
  | zero => intro s h; obtain ⟨k, hk, _⟩ := h; omega
  | succ fuel ih =>
    intro s h
    rw [findSize]
    by_cases hs : sizeOk a s = true
    · rw [if_pos hs]; exact hs
    · rw [if_neg hs]
      obtain ⟨k, hk, hvk⟩ := h
      apply ih (s + 1)
      refine ⟨k - 1, by
        rcases Nat.eq_zero_or_pos k with h0 | h0
        · subst h0; simp at hvk; exact absurd hvk hs
        · omega, ?_⟩
      have : (s + 1) + ((k - 1 : Nat) : Int) = s + (k : Int) := by
        have : 1 ≤ k := by
          rcases Nat.eq_zero_or_pos k with h0 | h0
          · subst h0; simp at hvk; exact absurd hvk hs
          · omega
        omega
      rw [this]
      exact hvk

theorem findSize_min (a : Nat) : ∀ (fuel : Nat) (s u : Int), s ≤ u →
    u < findSize a s fuel → sizeOk a u = false := by
  intro fuel
  induction fuel with
  | zero => intro s u hsu hlt; rw [findSize] at hlt; omega
  | succ fuel ih =>
    intro s u hsu hlt
    rw [findSize] at hlt
    by_cases hs : sizeOk a s = true
    · rw [if_pos hs] at hlt; omega
    · rw [if_neg hs] at hlt
      rcases eq_or_lt_of_le hsu with h | h
      · subst h; exact Bool.eq_false_iff.mpr hs
      · exact ih (s + 1) u (by omega) hlt

theorem sizeOk_iff {a : Nat} {s : Int} :
    sizeOk a s = true ↔ 0 ≤ s ∧ s ≤ 32 ∧ a % 2 ^ (32 - s).toNat = 0 := by
  simp [sizeOk, and_assoc]

theorem stepS_ok (a : Nat) (c : Int) : sizeOk a (stepS a c) = true := by
  apply findSize_found
  refine ⟨floorLog2 c.toNat, by omega, ?_⟩
  have e : (32 - (floorLog2 c.toNat : Int)) + (floorLog2 c.toNat : Int) = 32 := by ring
  rw [e]
  rw [sizeOk_iff]
  refine ⟨by norm_num, le_rfl, ?_⟩
  norm_num [Nat.mod_one]

theorem stepS_nonneg (a : Nat) (c : Int) : 0 ≤ stepS a c :=
  (sizeOk_iff.mp (stepS_ok a c)).1

theorem stepS_le_32 (a : Nat) (c : Int) : stepS a c ≤ 32 :=
  (sizeOk_iff.mp (stepS_ok a c)).2.1

theorem stepUsed_dvd (a : Nat) (c : Int) : stepUsed a c ∣ a := by
  have h := (sizeOk_iff.mp (stepS_ok a c)).2.2
  exact Nat.dvd_of_mod_eq_zero h

theorem stepUsed_pos (a : Nat) (c : Int) : 1 ≤ stepUsed a c :=
  Nat.one_le_two_pow

theorem stepS_lb (a : Nat) (c : Int) :
    32 - (floorLog2 c.toNat : Int) ≤ stepS a c :=
  findSize_ge a _ _

theorem stepUsed_le (a : Nat) (c : Int) (h : 1 ≤ c) : (stepUsed a c : Int) ≤ c := by
  have hlb := stepS_lb a c
  have h32 := stepS_le_32 a c
  have hexp : (32 - stepS a c).toNat ≤ floorLog2 c.toNat := by omega
  have h1 : stepUsed a c ≤ 2 ^ floorLog2 c.toNat :=
    Nat.pow_le_pow_right (by norm_num) hexp
  have h2 : 2 ^ floorLog2 c.toNat ≤ c.toNat := floorLog2_le (by omega)
  omega

theorem stepUsed_le_cap (a : Nat) (c : Int) : stepUsed a c ≤ 2 ^ 32 := by
  have h0 := stepS_nonneg a c
  have : (32 - stepS a c).toNat ≤ 32 := by omega
  exact Nat.pow_le_pow_right (by norm_num) this

/-- If `d` divides both `a` and `b` and `a < b`, then `a + d ≤ b`. -/
theorem dvd_add_le {d a b : Nat} (hda : d ∣ a) (hdb : d ∣ b) (hab : a < b) :
    a + d ≤ b := by
  have h1 : d ∣ b - a := Nat.dvd_sub' hdb hda
  have h2 : d ≤ b - a := Nat.le_of_dvd (by omega) h1
  omega

theorem step_no_straddle (a : Nat) (c : Int) (h2 : a < 2 ^ 32) :
    a + stepUsed a c ≤ 2 ^ 32 := by
  apply dvd_add_le (stepUsed_dvd a c) _ h2
  have h0 := stepS_nonneg a c
  exact pow_dvd_pow 2 (by omega)

/-- Greedy maximality of the emitted block size: among powers of two that
divide the current address, fit in the remaining count, and fit in the
address space, the step emits the largest. -/
theorem stepUsed_max (a : Nat) (c : Int) (h1 : 1 ≤ c) :
    ∀ b : Nat, (∃ k, b = 2 ^ k) → b ∣ a → (b : Int) ≤ c → b ≤ 2 ^ 32 →
      b ≤ stepUsed a c := by
  intro b hpow hdvd hle hcap
  by_contra hcon
  push_neg at hcon
  obtain ⟨k, rfl⟩ := hpow
  have hk32 : k ≤ 32 := (Nat.pow_le_pow_iff_right (by norm_num)).mp hcap
  have hkc : 2 ^ k ≤ c.toNat := by omega
  have hkl : k ≤ floorLog2 c.toNat := by
    have := lt_floorLog2_succ (n := c.toNat) (by omega)
    have hlt : 2 ^ k < 2 ^ (floorLog2 c.toNat + 1) := by omega
    have := (Nat.pow_lt_pow_iff_right (a := 2) (by norm_num)).mp hlt
    omega
  have hs0 := stepS_nonneg a c
  have hs32 := stepS_le_32 a c
  have hku : (32 - stepS a c).toNat < k := by
    have := (Nat.pow_lt_pow_iff_right (a := 2) (by norm_num)).mp hcon
    exact this
  -- the smaller length `32 - k` would already have been accepted
  have hvalid : sizeOk a (32 - (k : Int)) = true := by
    rw [sizeOk_iff]
    refine ⟨by omega, by omega, ?_⟩
    apply Nat.mod_eq_zero_of_dvd
    have : ((32 : Int) - (32 - (k : Int))).toNat = k := by omega
    rw [this]
    exact hdvd
  have hmin : sizeOk a (32 - (k : Int)) = false := by
    apply findSize_min a (floorLog2 c.toNat + 1) (32 - (floorLog2 c.toNat : Int))
    · omega
    · show 32 - (k : Int) < stepS a c
      omega
  rw [hvalid] at hmin
  exact Bool.true_eq_false.mp hmin

/-! ### Behaviour of the decomposition loop -/

theorem loop_nonpos (a : Nat) (c : Int) (fuel : Nat) (h : c ≤ 0) :
    add_v4_block_loop a c fuel = some ([], false) := by
  cases fuel with
  | zero => rw [add_v4_block_loop, if_pos h]
  | succ fuel => rw [add_v4_block_loop, if_pos h]

/-- Master invariant of the outer loop: with enough fuel and a valid start
address, the loop returns the fragments tiling the in-space portion of the
requested range, and raises exactly when the range reaches the end of the
address space. -/
theorem loop_master : ∀ (fuel : Nat) (a : Nat) (c : Int), a < 2 ^ 32 → 1 ≤ c →
    c.toNat ≤ fuel →
    ∃ fs, add_v4_block_loop a c fuel = some (fs, decide (2 ^ 32 ≤ a + c.toNat)) ∧
      coversChain fs a (min c.toNat (2 ^ 32 - a)) := by
  intro fuel
  induction fuel with
  | zero => intro a c h1 h2 h3; omega
  | succ fuel ih =>
    intro a c ha hc hfuel
    have hc0 : ¬ c ≤ 0 := by omega
    have hule : (stepUsed a c : Int) ≤ c := stepUsed_le a c hc
    have hupos : 1 ≤ stepUsed a c := stepUsed_pos a c
    have hstr : a + stepUsed a c ≤ 2 ^ 32 := step_no_straddle a c ha
    rw [add_v4_block_loop, if_neg hc0]
    by_cases hend : 2 ^ 32 ≤ a + stepUsed a c
    · rw [if_pos hend]
      have heq : a + stepUsed a c = 2 ^ 32 := by omega
      refine ⟨[⟨a, stepS a c, stepUsed a c⟩], ?_, ?_⟩
      · have : decide (2 ^ 32 ≤ a + c.toNat) = true := by
          simp only [decide_eq_true_eq]
          omega
        rw [this]
      · have hm : min c.toNat (2 ^ 32 - a) = stepUsed a c := by omega
        rw [hm]
        exact ⟨rfl, hupos, le_rfl, by simp [coversChain]⟩
    · rw [if_neg hend]
      by_cases hcu : c - (stepUsed a c : Int) ≤ 0
      · have hrec := loop_nonpos (a + stepUsed a c) (c - (stepUsed a c : Int)) fuel hcu
        rw [hrec]
        have hcm : c.toNat = stepUsed a c := by omega
        refine ⟨[⟨a, stepS a c, stepUsed a c⟩], ?_, ?_⟩
        · have : decide (2 ^ 32 ≤ a + c.toNat) = false := by
            simp only [decide_eq_false_iff_not]
            omega
          rw [this]
        · have hm : min c.toNat (2 ^ 32 - a) = stepUsed a c := by omega
          rw [hm]
          exact ⟨rfl, hupos, le_rfl, by simp [coversChain]⟩
      · obtain ⟨fs, hfs, hchain⟩ := ih (a + stepUsed a c) (c - (stepUsed a c : Int))
          (by omega) (by omega) (by omega)
        rw [hfs]
        refine ⟨⟨a, stepS a c, stepUsed a c⟩ :: fs, ?_, ?_⟩
        · have : decide (2 ^ 32 ≤ a + stepUsed a c + (c - (stepUsed a c : Int)).toNat) =
              decide (2 ^ 32 ≤ a + c.toNat) := by
            have : a + stepUsed a c + (c - (stepUsed a c : Int)).toNat = a + c.toNat := by
              omega
            rw [this]
          rw [this]
        · have hmeq : min c.toNat (2 ^ 32 - a) - stepUsed a c =
              min (c - (stepUsed a c : Int)).toNat (2 ^ 32 - (a + stepUsed a c)) := by
            omega
          refine ⟨rfl, hupos, ?_, ?_⟩
          · show stepUsed a c ≤ min c.toNat (2 ^ 32 - a)
            omega
          · show coversChain fs (a + stepUsed a c) (min c.toNat (2 ^ 32 - a) - stepUsed a c)
            rw [hmeq]
            exact hchain

theorem loop_isSome : ∀ (fuel : Nat) (a : Nat) (c : Int), c.toNat ≤ fuel →
    (add_v4_block_loop a c fuel).isSome = true := by
  intro fuel
  induction fuel with
  | zero =>
    intro a c h
    have : c ≤ 0 := by omega
    rw [loop_nonpos a c 0 this]
    rfl
  | succ fuel ih =>
    intro a c h
    by_cases hc : c ≤ 0
    · rw [loop_nonpos a c (fuel + 1) hc]; rfl
    · rw [add_v4_block_loop, if_neg hc]
      by_cases hend : 2 ^ 32 ≤ a + stepUsed a c
      · rw [if_pos hend]; rfl
      · rw [if_neg hend]
        have hupos := stepUsed_pos a c
        have := ih (a + stepUsed a c) (c - (stepUsed a c : Int)) (by omega)
        rcases hsub : add_v4_block_loop (a + stepUsed a c) (c - (stepUsed a c : Int)) fuel with
          _ | ⟨fs, e⟩
        · rw [hsub] at this; simp at this
        · rfl

theorem loop_stable : ∀ (fuel fuel2 : Nat) (a : Nat) (c : Int), c.toNat ≤ fuel →
    c.toNat ≤ fuel2 →
    add_v4_block_loop a c fuel = add_v4_block_loop a c fuel2 := by
  intro fuel
  induction fuel with
  | zero =>
    intro fuel2 a c h1 h2
    have : c ≤ 0 := by omega
    rw [loop_nonpos a c 0 this, loop_nonpos a c fuel2 this]
  | succ fuel ih =>
    intro fuel2 a c h1 h2
    by_cases hc : c ≤ 0
    · rw [loop_nonpos a c (fuel + 1) hc, loop_nonpos a c fuel2 hc]
    · have h2pos : 1 ≤ fuel2 := by omega
      obtain ⟨fuel2p, rfl⟩ : ∃ m, fuel2 = m + 1 := ⟨fuel2 - 1, by omega⟩
      rw [add_v4_block_loop]
      conv_rhs => rw [add_v4_block_loop]
      rw [if_neg hc, if_neg hc]
      by_cases hend : 2 ^ 32 ≤ a + stepUsed a c
      · rw [if_pos hend, if_pos hend]
      · rw [if_neg hend, if_neg hend]
        have hupos := stepUsed_pos a c
        rw [ih fuel2p (a + stepUsed a c) (c - (stepUsed a c : Int)) (by omega) (by omega)]

/-- Every fragment returned by the loop has a nonempty block whose length
lies in `[0, 32]` and whose size is the power of two determined by its
length. -/
theorem loop_frag_bounds : ∀ (fuel : Nat) (a : Nat) (c : Int) (fs : List Frag)
    (e : Bool), add_v4_block_loop a c fuel = some (fs, e) →
    ∀ f ∈ fs, 1 ≤ f.used ∧ 0 ≤ f.len ∧ f.len ≤ 32 ∧ f.used = 2 ^ (32 - f.len).toNat := by
  intro fuel
  induction fuel with
  | zero =>
    intro a c fs e h f hf
    rw [add_v4_block_loop] at h
    by_cases hc : c ≤ 0
    · rw [if_pos hc] at h
      cases h
      simp at hf
    · rw [if_neg hc] at h
      cases h
  | succ fuel ih =>
    intro a c fs e h f hf
    rw [add_v4_block_loop] at h
    by_cases hc : c ≤ 0
    · rw [if_pos hc] at h
      cases h
      simp at hf
    · rw [if_neg hc] at h
      by_cases hend : 2 ^ 32 ≤ a + stepUsed a c
      · rw [if_pos hend] at h
        cases h
        simp only [List.mem_singleton] at hf
        subst hf
        exact ⟨stepUsed_pos a c, stepS_nonneg a c, stepS_le_32 a c, rfl⟩
      · rw [if_neg hend] at h
        rcases hsub : add_v4_block_loop (a + stepUsed a c) (c - (stepUsed a c : Int)) fuel with
          _ | ⟨fs2, e2⟩
        · rw [hsub] at h; cases h
        · rw [hsub] at h
          cases h
          rcases List.mem_cons.mp hf with hf | hf
          · subst hf
            exact ⟨stepUsed_pos a c, stepS_nonneg a c, stepS_le_32 a c, rfl⟩
          · exact ih _ _ _ _ hsub f hf

/-! ### Consequences of the chain invariant -/

theorem chain_lb : ∀ (fs : List Frag) (a c : Nat), coversChain fs a c →
    ∀ f ∈ fs, a ≤ f.addr := by
  intro fs
  induction fs with
  | nil => intro a c _ f hf; simp at hf
  | cons g gs ih =>
    intro a c hchain f hf
    obtain ⟨haddr, hpos, hle, htail⟩ := hchain
    rcases List.mem_cons.mp hf with hf | hf
    · subst hf; omega
    · have := ih (a + g.used) (c - g.used) htail f hf
      omega

theorem chain_pairwise : ∀ (fs : List Frag) (a c : Nat), coversChain fs a c →
    fs.Pairwise (fun f g => f.addr + f.used ≤ g.addr) := by
  intro fs
  induction fs with
  | nil => intro a c _; exact List.Pairwise.nil
  | cons g gs ih =>
    intro a c hchain
    obtain ⟨haddr, hpos, hle, htail⟩ := hchain
    refine List.Pairwise.cons ?_ (ih _ _ htail)
    intro f hf
    have := chain_lb gs (a + g.used) (c - g.used) htail f hf
    omega

theorem chain_union : ∀ (fs : List Frag) (a c : Nat), coversChain fs a c →
    ∀ x : Nat, (∃ f ∈ fs, f.addr ≤ x ∧ x < f.addr + f.used) ↔ (a ≤ x ∧ x < a + c) := by
  intro fs
  induction fs with
  | nil =>
    intro a c hchain x
    have : c = 0 := hchain
    subst this
    simp
  | cons g gs ih =>
    intro a c hchain x
    obtain ⟨haddr, hpos, hle, htail⟩ := hchain
    have ihx := ih (a + g.used) (c - g.used) htail x
    simp only [List.mem_cons] at ihx ⊢
    constructor
    · rintro ⟨f, hf | hf, hx1, hx2⟩
      · subst hf; omega
      · have := ihx.mp ⟨f, hf, hx1, hx2⟩
        omega
    · intro hx
      by_cases hcase : x < a + g.used
      · exact ⟨g, Or.inl rfl, by omega, by omega⟩
      · obtain ⟨f, hf, hrange⟩ := ihx.mpr (by omega)
        exact ⟨f, Or.inr hf, hrange⟩

theorem chain_ne_nil {fs : List Frag} {a c : Nat} (h : coversChain fs a c)
    (hc : 1 ≤ c) : fs ≠ [] := by
  intro hnil
  subst hnil
  have : c = 0 := h
  omega

theorem chain_addr_pairwise : ∀ (fs : List Frag) (a c : Nat), coversChain fs a c →
    fs.Pairwise (fun f g => f.addr < g.addr) := by
  intro fs
  induction fs with
  | nil => intro a c _; exact List.Pairwise.nil
  | cons g gs ih =>
    intro a c hchain
    obtain ⟨haddr, hpos, hle, htail⟩ := hchain
    refine List.Pairwise.cons ?_ (ih _ _ htail)
    intro f hf
    have := chain_lb gs (a + g.used) (c - g.used) htail f hf
    omega

theorem chain_keys_nodup (fs : List Frag) (a c : Nat) (h : coversChain fs a c) :
    (fs.map (fun f => (⟨f.addr, f.len⟩ : V4Key))).Nodup := by
  have hpw := chain_addr_pairwise fs a c h
  refine List.Pairwise.map _ ?_ hpw
  intro f g hlt
  simp only [ne_eq, V4Key.mk.injEq, not_and]
  intro ha
  omega

/-! ### Radix-tree insertion lemmas -/

section Radix

variable {κ : Type} [DecidableEq κ]

theorem add_pfx_absent (t : Radix κ) (k : κ) (e : Info)
    (h : k ∉ t.map Prod.fst) : add_prefix_to_radix t k e = t ++ [(k, [e])] := by
  induction t with
  | nil => rfl
  | cons n t ih =>
    simp only [List.map_cons, List.mem_cons, not_or] at h
    rw [add_prefix_to_radix, if_neg (fun hk => h.1 hk.symm), ih h.2]
    rfl

theorem add_pfx_head (k : κ) (l : List Info) (t : Radix κ) (e : Info) :
    add_prefix_to_radix ((k, l) :: t) k e = (k, l ++ [e]) :: t := by
  rw [add_prefix_to_radix, if_pos rfl]

theorem add_pfx_other (n : κ × List Info) (t : Radix κ) (k : κ) (e : Info)
    (h : n.1 ≠ k) : add_prefix_to_radix (n :: t) k e = n :: add_prefix_to_radix t k e := by
  rw [add_prefix_to_radix, if_neg h]

theorem insertPairs_nil (t : Radix κ) : insertPairs t [] = t := rfl

theorem insertPairs_cons (t : Radix κ) (p : κ × Info) (ps : List (κ × Info)) :
    insertPairs t (p :: ps) = insertPairs (add_prefix_to_radix t p.1 p.2) ps := rfl

theorem insertPairs_skip_head (n : κ × List Info) (t : Radix κ) :
    ∀ ps : List (κ × Info), (∀ p ∈ ps, p.1 ≠ n.1) →
    insertPairs (n :: t) ps = n :: insertPairs t ps := by
  intro ps
  induction ps generalizing t with
  | nil => intro _; rfl
  | cons p ps ih =>
    intro h
    rw [insertPairs_cons, insertPairs_cons,
      add_pfx_other n t p.1 p.2 (fun hk => h p (by simp) hk.symm)]
    exact ih _ (fun q hq => h q (List.mem_cons_of_mem p hq))

theorem insertPairs_fresh (t : Radix κ) : ∀ ps : List (κ × Info),
    (ps.map Prod.fst).Nodup → (∀ p ∈ ps, p.1 ∉ t.map Prod.fst) →
    insertPairs t ps = t ++ ps.map (fun p => (p.1, [p.2])) := by
  intro ps
  induction ps generalizing t with
  | nil => intro _ _; simp [insertPairs_nil]
  | cons p ps ih =>
    intro hnd hfr
    rw [insertPairs_cons, add_pfx_absent t p.1 p.2 (hfr p (by simp))]
    simp only [List.map_cons, List.nodup_cons] at hnd
    rw [ih (t ++ [(p.1, [p.2])]) hnd.2 ?_]
    · simp
    · intro q hq
      simp only [List.map_append, List.mem_append, List.map_cons, List.map_nil,
        List.mem_singleton, not_or]
      refine ⟨hfr q (List.mem_cons_of_mem p hq), ?_⟩
      intro hqp
      exact hnd.1 (hqp ▸ List.mem_map_of_mem Prod.fst hq)

theorem insertPairs_again : ∀ ps : List (κ × Info), (ps.map Prod.fst).Nodup →
    insertPairs (ps.map (fun p => (p.1, [p.2]))) ps =
      ps.map (fun p => (p.1, [p.2, p.2])) := by
  intro ps
  induction ps with
  | nil => intro _; rfl
  | cons p ps ih =>
    intro hnd
    simp only [List.map_cons, List.nodup_cons] at hnd
    rw [List.map_cons, insertPairs_cons, add_pfx_head]
    have hne : ∀ q ∈ ps, q.1 ≠ p.1 := by
      intro q hq hqp
      exact hnd.1 (hqp ▸ List.mem_map_of_mem Prod.fst hq)
    rw [insertPairs_skip_head (p.1, [p.2] ++ [p.2]) (ps.map (fun q => (q.1, [q.2]))) ps hne]
    rw [ih hnd.2]
    rfl

/-! ### Flattened pairs and permutation lemmas -/

theorem nodePairs_append (t1 t2 : Radix κ) :
    nodePairs (t1 ++ t2) = nodePairs t1 ++ nodePairs t2 := by
  induction t1 with
  | nil => rfl
  | cons n t ih => simp [nodePairs, ih]

theorem nodePairs_perm_of_perm {t1 t2 : Radix κ} (h : t1.Perm t2) :
    (nodePairs t1).Perm (nodePairs t2) := by
  induction h with
  | nil => exact List.Perm.refl _
  | cons n _ ih => exact List.Perm.append_left _ ih
  | swap n m l =>
    show (nodePairs (m :: n :: l)).Perm (nodePairs (n :: m :: l))
    simp only [nodePairs, ← List.append_assoc]
    exact List.Perm.append_right _ List.perm_append_comm
  | trans _ _ ih1 ih2 => exact ih1.trans ih2

theorem nodePairs_add_pfx (t : Radix κ) (k : κ) (e : Info) :
    (nodePairs (add_prefix_to_radix t k e)).Perm (nodePairs t ++ [(k, e)]) := by
  induction t with
  | nil => simp [add_prefix_to_radix, nodePairs]
  | cons n t ih =>
    by_cases h : n.1 = k
    · subst h
      rw [show (n : κ × List Info) = (n.1, n.2) from rfl, add_pfx_head]
      simp only [nodePairs, List.map_append, List.append_assoc]
      exact List.Perm.append_left _ List.perm_append_comm
    · rw [add_pfx_other n t k e h]
      simp only [nodePairs, List.append_assoc]
      exact List.Perm.append_left _ ih

theorem nodePairs_insertPairs (t : Radix κ) : ∀ ps : List (κ × Info),
    (nodePairs (insertPairs t ps)).Perm (nodePairs t ++ ps) := by
  intro ps
  induction ps generalizing t with
  | nil => simp [insertPairs_nil]
  | cons p ps ih =>
    rw [insertPairs_cons]
    have h1 := ih (add_prefix_to_radix t p.1 p.2)
    have h2 := List.Perm.append_right ps (nodePairs_add_pfx t p.1 p.2)
    have h3 : (nodePairs t ++ [(p.1, p.2)]) ++ ps = nodePairs t ++ (p :: ps) := by
      rw [List.append_assoc]
      rfl
    exact h1.trans (h3 ▸ h2)

theorem sortInsert_perm (le : κ → κ → Bool) (n : κ × List Info) :
    ∀ t : Radix κ, (sortInsert le n t).Perm (n :: t) := by
  intro t
  induction t with
  | nil => exact List.Perm.refl _
  | cons m ms ih =>
    rw [sortInsert]
    by_cases h : le n.1 m.1 = true
    · rw [if_pos h]
    · rw [if_neg h]
      exact (List.Perm.cons m ih).trans (List.Perm.swap n m ms)

theorem sortNodes_perm (le : κ → κ → Bool) :
    ∀ t : Radix κ, (sortNodes le t).Perm t := by
  intro t
  induction t with
  | nil => exact List.Perm.refl _
  | cons n ns ih =>
    rw [sortNodes]
    exact (sortInsert_perm le n (sortNodes le ns)).trans (List.Perm.cons n ih)

end Radix

/-! ### Ingestion-level lemmas -/

theorem concatPairs_append {α : Type} (l1 l2 : List (List α)) :
    concatPairs (l1 ++ l2) = concatPairs l1 ++ concatPairs l2 := by
  induction l1 with
  | nil => rfl
  | cons l ls ih => simp [concatPairs, ih]

theorem concatPairs_map_perm {α β : Type} (f : α → List β) {l1 l2 : List α}
    (h : l1.Perm l2) : (concatPairs (l1.map f)).Perm (concatPairs (l2.map f)) := by
  induction h with
  | nil => exact List.Perm.refl _
  | cons x _ ih => exact List.Perm.append_left _ ih
  | swap x y l =>
    simp only [List.map_cons, concatPairs, ← List.append_assoc]
    exact List.Perm.append_right _ List.perm_append_comm
  | trans _ _ ih1 ih2 => exact ih1.trans ih2

theorem ingestRec_err (st : Radix V4Key × Radix V6Key) (r : SrcRec) :
    (ingestRec st r).2 = recErr r := by
  cases r with
  | v4 a c i =>
    simp only [ingestRec, recErr, add_v4_block_to_radix]
    rcases add_v4_block_loop a c c.toNat with _ | ⟨fs, e⟩ <;> rfl
  | v6 k i => rfl

theorem ingestRec_v4pairs (st : Radix V4Key × Radix V6Key) (r : SrcRec) :
    (nodePairs (ingestRec st r).1.1).Perm (nodePairs st.1 ++ recPairsV4 r) := by
  cases r with
  | v4 a c i =>
    simp only [ingestRec, recPairsV4, add_v4_block_to_radix]
    rcases add_v4_block_loop a c c.toNat with _ | ⟨fs, e⟩
    · simp
    · exact nodePairs_insertPairs _ _
  | v6 k i =>
    simp only [ingestRec, recPairsV4]
    simp

theorem ingestRec_v6pairs (st : Radix V4Key × Radix V6Key) (r : SrcRec) :
    (nodePairs (ingestRec st r).1.2).Perm (nodePairs st.2 ++ recPairsV6 r) := by
  cases r with
  | v4 a c i =>
    simp only [ingestRec, recPairsV6]
    rcases add_v4_block_loop a c c.toNat with _ | ⟨fs, e⟩ <;> simp
  | v6 k i =>
    simp only [ingestRec, recPairsV6]
    exact (nodePairs_add_pfx st.2 k i).trans (List.Perm.refl _)

theorem ingestAll_spec (st : Radix V4Key × Radix V6Key) :
    ∀ rs : List SrcRec, (∀ r ∈ rs, recErr r = false) →
    (ingestAll st rs).2 = false ∧
    (nodePairs (ingestAll st rs).1.1).Perm
      (nodePairs st.1 ++ concatPairs (rs.map recPairsV4)) ∧
    (nodePairs (ingestAll st rs).1.2).Perm
      (nodePairs st.2 ++ concatPairs (rs.map recPairsV6)) := by
  intro rs
  induction rs generalizing st with
  | nil =>
    intro _
    refine ⟨rfl, ?_, ?_⟩ <;> simp [ingestAll, concatPairs]
  | cons r rs ih =>
    intro hok
    have hr : recErr r = false := hok r (by simp)
    have herr : (ingestRec st r).2 = false := by rw [ingestRec_err]; exact hr
    rw [ingestAll]
    simp only [herr, Bool.false_eq_true, if_false]
    obtain ⟨he, h4, h6⟩ := ih (ingestRec st r).1
      (fun q hq => hok q (List.mem_cons_of_mem r hq))
    refine ⟨he, ?_, ?_⟩
    · have step := List.Perm.append_right (concatPairs (rs.map recPairsV4))
        (ingestRec_v4pairs st r)
      have assoc : (nodePairs st.1 ++ recPairsV4 r) ++ concatPairs (rs.map recPairsV4) =
          nodePairs st.1 ++ concatPairs ((r :: rs).map recPairsV4) := by
        simp [concatPairs, List.append_assoc]
      exact h4.trans (assoc ▸ step)
    · have step := List.Perm.append_right (concatPairs (rs.map recPairsV6))
        (ingestRec_v6pairs st r)
      have assoc : (nodePairs st.2 ++ recPairsV6 r) ++ concatPairs (rs.map recPairsV6) =
          nodePairs st.2 ++ concatPairs ((r :: rs).map recPairsV6) := by
        simp [concatPairs, List.append_assoc]
      exact h6.trans (assoc ▸ step)

/-! ### Claim C1 -/

/-- C1 (counterexample): the decomposition does not cover `[start, start +
count)` for every `count > 0`.  At `start = 2^32 - 1`, `count = 2`, the loop
emits only the single /32 at `2^32 - 1` and then raises, so the address
`2^32` (inside the requested range) is covered by no emitted fragment. -/
theorem c1_exact_coverage_counterexample :
    add_v4_block_loop (2 ^ 32 - 1) 2 2 = some ([⟨2 ^ 32 - 1, 32, 1⟩], true) ∧
    ¬ ((∃ f ∈ [(⟨2 ^ 32 - 1, 32, 1⟩ : Frag)], f.addr ≤ 2 ^ 32 ∧ 2 ^ 32 < f.addr + f.used) ↔
       (2 ^ 32 - 1 ≤ 2 ^ 32 ∧ 2 ^ 32 < 2 ^ 32 - 1 + 2)) := by
  constructor
  · decide
  · decide

/-- C1 (amended): for every start address and `count > 0` such that the
block lies inside the address space (`start + count ≤ 2^32`), the emitted
fragments cover exactly `[start, start + count)`: their ranges are pairwise
disjoint and in ascending address order, and their union is the requested
range with no gap or overlap. -/
theorem c1_exact_coverage (a cnt : Nat) (h1 : a < 2 ^ 32) (h2 : 1 ≤ cnt)
    (h3 : a + cnt ≤ 2 ^ 32) :
    ∃ fs e, add_v4_block_loop a (cnt : Int) cnt = some (fs, e) ∧
      (∀ x : Nat, (∃ f ∈ fs, f.addr ≤ x ∧ x < f.addr + f.used) ↔ (a ≤ x ∧ x < a + cnt)) ∧
      fs.Pairwise (fun f g => f.addr + f.used ≤ g.addr) := by
  obtain ⟨fs, hfs, hchain⟩ := loop_master cnt a (cnt : Int) h1 (by omega) (by omega)
  have htn : ((cnt : Int)).toNat = cnt := by omega
  rw [htn] at hfs hchain
  have hmin : min cnt (2 ^ 32 - a) = cnt := by omega
  rw [hmin] at hchain
  exact ⟨fs, _, hfs, chain_union fs a cnt hchain, chain_pairwise fs a cnt hchain⟩

/-- Witness for C1 at `start = 10.0.0.0`, `count = 3`. -/
theorem c1_exact_coverage_witness :
    (167772160 < 2 ^ 32 ∧ 1 ≤ 3 ∧ 167772160 + 3 ≤ 2 ^ 32) ∧
    (∃ fs e, add_v4_block_loop 167772160 (3 : Int) 3 = some (fs, e) ∧
      (∀ x : Nat, (∃ f ∈ fs, f.addr ≤ x ∧ x < f.addr + f.used) ↔
        (167772160 ≤ x ∧ x < 167772160 + 3)) ∧
      fs.Pairwise (fun f g => f.addr + f.used ≤ g.addr)) :=
  ⟨by decide, c1_exact_coverage 167772160 3 (by decide) (by decide) (by decide)⟩

/-! ### Claim C2 -/

theorem loop_head (a : Nat) (c : Int) (h1 : 1 ≤ c) :
    ∃ rest e, add_v4_block_loop a c c.toNat =
      some (⟨a, stepS a c, stepUsed a c⟩ :: rest, e) := by
  obtain ⟨m, hm⟩ : ∃ m, c.toNat = m + 1 := ⟨c.toNat - 1, by omega⟩
  rw [hm, add_v4_block_loop, if_neg (by omega : ¬ c ≤ 0)]
  by_cases hend : 2 ^ 32 ≤ a + stepUsed a c
  · rw [if_pos hend]
    exact ⟨[], true, rfl⟩
  · rw [if_neg hend]
    have hupos := stepUsed_pos a c
    have hs := loop_isSome m (a + stepUsed a c) (c - (stepUsed a c : Int)) (by omega)
    rcases hsub : add_v4_block_loop (a + stepUsed a c) (c - (stepUsed a c : Int)) m with
      _ | ⟨fs, e⟩
    · rw [hsub] at hs; simp at hs
    · exact ⟨fs, e, rfl⟩

/-- C2 (counterexample): the emitted block size is not always the largest
power of two `b` with `b ≤ remaining_count` and `start` a multiple of `b`.
At `start = 0`, `count = 2^33`, the loop emits a block of `2^32` addresses
(`0.0.0.0/0`), although `b = 2^33` also satisfies `b ≤ count` and `0` is a
multiple of `b`: the implicit cap `b ≤ 2^32` is missing from the claim. -/
theorem c2_greedy_max_counterexample :
    add_v4_block_loop 0 ((2 : Int) ^ 33) ((2 : Int) ^ 33).toNat =
      some ([⟨0, 0, 2 ^ 32⟩], true) ∧
    (∃ k, (2 : Nat) ^ 33 = 2 ^ k) ∧ (2 : Nat) ^ 33 ∣ 0 ∧
    (((2 : Nat) ^ 33 : Nat) : Int) ≤ (2 : Int) ^ 33 ∧
    ¬ ((2 : Nat) ^ 33 ≤ 2 ^ 32) := by
  refine ⟨by decide, ⟨33, rfl⟩, dvd_zero _, by norm_num, by norm_num⟩

/-- C2 (amended): at every iteration the emitted block size `b` is the
largest power of two such that `b ≤ remaining_count`, `b ≤ 2^32`, and the
current start address is an integer multiple of `b`.  (Stated for the head
of the loop at an arbitrary state `(a, c)`; every iteration of the source
loop is the head of such a state.) -/
theorem c2_greedy_max (a : Nat) (c : Int) (h1 : 1 ≤ c) :
    ∃ fs e f rest, add_v4_block_loop a c c.toNat = some (fs, e) ∧ fs = f :: rest ∧
      (∃ k, f.used = 2 ^ k) ∧ f.used ∣ a ∧ (f.used : Int) ≤ c ∧ f.used ≤ 2 ^ 32 ∧
      (∀ b : Nat, (∃ k, b = 2 ^ k) → b ∣ a → (b : Int) ≤ c → b ≤ 2 ^ 32 →
        b ≤ f.used) := by
  obtain ⟨rest, e, hloop⟩ := loop_head a c h1
  exact ⟨_, e, _, rest, hloop, rfl, ⟨(32 - stepS a c).toNat, rfl⟩, stepUsed_dvd a c,
    stepUsed_le a c h1, stepUsed_le_cap a c, stepUsed_max a c h1⟩

/-- Witness for C2 at `start = 4`, `count = 4` (emits the aligned /30). -/
theorem c2_greedy_max_witness :
    (1 ≤ (4 : Int)) ∧
    (∃ fs e f rest, add_v4_block_loop 4 (4 : Int) ((4 : Int)).toNat = some (fs, e) ∧
      fs = f :: rest ∧
      (∃ k, f.used = 2 ^ k) ∧ f.used ∣ 4 ∧ (f.used : Int) ≤ 4 ∧ f.used ≤ 2 ^ 32 ∧
      (∀ b : Nat, (∃ k, b = 2 ^ k) → b ∣ 4 → (b : Int) ≤ 4 → b ≤ 2 ^ 32 →
        b ≤ f.used)) :=
  ⟨by decide, c2_greedy_max 4 4 (by decide)⟩

/-! ### Claim C10 -/

/-- C10: the decomposition terminates for every start address and count:
fuel equal to the count suffices (each iteration consumes at least one
address or exits), the result is stable for any larger fuel, and the inner
alignment search never leaves `[0, 32]` (a /32 is always acceptable), every
emitted block holding at least one address. -/
theorem c10_termination (a : Nat) (c : Int) (fuel : Nat) (h : c.toNat ≤ fuel) :
    (add_v4_block_loop a c fuel).isSome = true ∧
    add_v4_block_loop a c fuel = add_v4_block_loop a c c.toNat ∧
    (∀ fs e, add_v4_block_loop a c fuel = some (fs, e) →
      ∀ f ∈ fs, 1 ≤ f.used ∧ 0 ≤ f.len ∧ f.len ≤ 32) := by
  refine ⟨loop_isSome fuel a c h, loop_stable fuel c.toNat a c h le_rfl, ?_⟩
  intro fs e hfs f hf
  obtain ⟨h1, h2, h3, _⟩ := loop_frag_bounds fuel a c fs e hfs f hf
  exact ⟨h1, h2, h3⟩

/-- Witness for C10 at `start = 5`, `count = 3`, `fuel = 10`. -/
theorem c10_termination_witness :
    ((3 : Int)).toNat ≤ 10 ∧
    ((add_v4_block_loop 5 3 10).isSome = true ∧
     add_v4_block_loop 5 3 10 = add_v4_block_loop 5 3 ((3 : Int)).toNat ∧
     (∀ fs e, add_v4_block_loop 5 3 10 = some (fs, e) →
       ∀ f ∈ fs, 1 ≤ f.used ∧ 0 ≤ f.len ∧ f.len ≤ 32)) :=
  ⟨by decide, c10_termination 5 3 10 (by decide)⟩

/-! ### Claim C5 -/

/-- C5 (counterexample): ingest of one record is not atomic.  For the
record `start = 2^32 - 2`, `count = 3`, ingest into an empty tree raises
(`prefix_addr += 2` leaves the address space), yet the fragment
`(2^32 - 2)/31` emitted before the failure stays attached: the tree is not
left as it was before the ingest began. -/
theorem c5_atomicity_counterexample :
    (add_v4_block_to_radix ([] : Radix V4Key) (2 ^ 32 - 2) 3 []).2 = true ∧
    (add_v4_block_to_radix ([] : Radix V4Key) (2 ^ 32 - 2) 3 []).1 =
      [(⟨2 ^ 32 - 2, 31⟩, [[Field.int 2]])] ∧
    [((⟨2 ^ 32 - 2, 31⟩ : V4Key), [[Field.int 2]])] ≠ ([] : Radix V4Key) := by
  exact ⟨by decide, by decide, by decide⟩

/-- C5 (amended): when the decomposition of a record fails partway (its
block leaves the IPv4 address space), the fragments emitted before the
failure remain attached to the tree: the tree afterwards holds exactly its
previous pairs plus the emitted (nonempty) fragment list. -/
theorem c5_partial_insert (t : Radix V4Key) (a : Nat) (c : Int) (i : Info)
    (h1 : 1 ≤ c) (h2 : a < 2 ^ 32) (h3 : (2 ^ 32 : Int) < (a : Int) + c) :
    ∃ fs, add_v4_block_loop a c c.toNat = some (fs, true) ∧ fs ≠ [] ∧
      (add_v4_block_to_radix t a c i).2 = true ∧
      (nodePairs (add_v4_block_to_radix t a c i).1).Perm
        (nodePairs t ++
          fs.map (fun f => (⟨f.addr, f.len⟩, i ++ [Field.int (f.used : Int)]))) := by
  obtain ⟨fs, hfs, hchain⟩ := loop_master c.toNat a c h2 h1 le_rfl
  have hd : decide (2 ^ 32 ≤ a + c.toNat) = true := by
    simp only [decide_eq_true_eq]
    omega
  rw [hd] at hfs
  have hmin : min c.toNat (2 ^ 32 - a) = 2 ^ 32 - a := by omega
  rw [hmin] at hchain
  refine ⟨fs, hfs, chain_ne_nil hchain (by omega), ?_, ?_⟩
  · simp only [add_v4_block_to_radix, hfs]
  · simp only [add_v4_block_to_radix, hfs]
    exact nodePairs_insertPairs t _

/-- Witness for C5 (amended) at `start = 2^32 - 8`, `count = 9`, empty
tree. -/
theorem c5_partial_insert_witness :
    (1 ≤ (9 : Int) ∧ 2 ^ 32 - 8 < 2 ^ 32 ∧
      (2 ^ 32 : Int) < ((2 ^ 32 - 8 : Nat) : Int) + 9) ∧
    (∃ fs, add_v4_block_loop (2 ^ 32 - 8) 9 ((9 : Int)).toNat = some (fs, true) ∧
      fs ≠ [] ∧
      (add_v4_block_to_radix ([] : Radix V4Key) (2 ^ 32 - 8) 9 []).2 = true ∧
      (nodePairs (add_v4_block_to_radix ([] : Radix V4Key) (2 ^ 32 - 8) 9 []).1).Perm
        (nodePairs ([] : Radix V4Key) ++
          fs.map (fun f => (⟨f.addr, f.len⟩, [] ++ [Field.int (f.used : Int)])))) :=
  ⟨by decide, c5_partial_insert [] (2 ^ 32 - 8) 9 [] (by decide) (by decide) (by decide)⟩

/-! ### Claim C6 -/

/-- C6 (counterexample): a count that extends past the end of the address
space is not rejected before emission.  At `start = 2^32 - 4`, `count = 8`,
the loop emits the /30 at `2^32 - 4` and only then raises: a fatal error is
raised, but prefixes are emitted first, not "rather than" emitting. -/
theorem c6_overflow_counterexample :
    add_v4_block_loop (2 ^ 32 - 4) 8 8 = some ([⟨2 ^ 32 - 4, 30, 4⟩], true) ∧
    ([(⟨2 ^ 32 - 4, 30, 4⟩ : Frag)] : List Frag) ≠ [] := by
  exact ⟨by decide, by decide⟩

/-- C6 (amended): for every IPv4 record whose block extends past the end of
the address space (including every `count > 2^32`), ingesting the record
raises a fatal error (the address increment leaves the IPv4 space), but
only after emitting the aligned prefixes covering `[start, 2^32)`. -/
theorem c6_overflow (a : Nat) (c : Int) (h1 : 1 ≤ c) (h2 : a < 2 ^ 32)
    (h3 : (2 ^ 32 : Int) < (a : Int) + c) :
    ∃ fs, add_v4_block_loop a c c.toNat = some (fs, true) ∧ fs ≠ [] ∧
      coversChain fs a (2 ^ 32 - a) := by
  obtain ⟨fs, hfs, hchain⟩ := loop_master c.toNat a c h2 h1 le_rfl
  have hd : decide (2 ^ 32 ≤ a + c.toNat) = true := by
    simp only [decide_eq_true_eq]
    omega
  rw [hd] at hfs
  have hmin : min c.toNat (2 ^ 32 - a) = 2 ^ 32 - a := by omega
  rw [hmin] at hchain
  exact ⟨fs, hfs, chain_ne_nil hchain (by omega), hchain⟩

/-- Witness for C6 (amended) at `start = 2^32 - 2`, `count = 5`. -/
theorem c6_overflow_witness :
    (1 ≤ (5 : Int) ∧ 2 ^ 32 - 2 < 2 ^ 32 ∧
      (2 ^ 32 : Int) < ((2 ^ 32 - 2 : Nat) : Int) + 5) ∧
    (∃ fs, add_v4_block_loop (2 ^ 32 - 2) 5 ((5 : Int)).toNat = some (fs, true) ∧
      fs ≠ [] ∧ coversChain fs (2 ^ 32 - 2) (2 ^ 32 - (2 ^ 32 - 2))) :=
  ⟨by decide, c6_overflow (2 ^ 32 - 2) 5 (by decide) (by decide) (by decide)⟩

/-! ### Claim C4 -/

/-- C4: ingesting the same IPv4 record twice (for an in-space block, so
that no exception interrupts the run) leaves every resulting prefix node
with exactly two attached entries — the duplicate is logged as a warning
and appended, never dropped or merged. -/
theorem c4_duplicate_record (a : Nat) (c : Int) (i : Info) (h1 : 1 ≤ c)
    (h2 : (a : Int) + c < 2 ^ 32) :
    ∀ n ∈ (add_v4_block_to_radix
        (add_v4_block_to_radix ([] : Radix V4Key) a c i).1 a c i).1,
      ∃ e, n.2 = [e, e] := by
  have ha : a < 2 ^ 32 := by omega
  obtain ⟨fs, hfs, hchain⟩ := loop_master c.toNat a c ha h1 le_rfl
  have hd : decide (2 ^ 32 ≤ a + c.toNat) = false := by
    simp only [decide_eq_false_iff_not]
    omega
  rw [hd] at hfs
  have hnd := chain_keys_nodup fs a _ hchain
  have hkeys : (fs.map (fun f =>
      ((⟨f.addr, f.len⟩ : V4Key), i ++ [Field.int (f.used : Int)]))).map Prod.fst =
      fs.map (fun f => (⟨f.addr, f.len⟩ : V4Key)) := by
    rw [List.map_map]
    rfl
  have hndp : ((fs.map (fun f =>
      ((⟨f.addr, f.len⟩ : V4Key), i ++ [Field.int (f.used : Int)]))).map Prod.fst).Nodup := by
    rw [hkeys]
    exact hnd
  have h1st : (add_v4_block_to_radix ([] : Radix V4Key) a c i).1 =
      (fs.map (fun f => ((⟨f.addr, f.len⟩ : V4Key), i ++ [Field.int (f.used : Int)]))).map
        (fun p => (p.1, [p.2])) := by
    simp only [add_v4_block_to_radix, hfs]
    rw [insertPairs_fresh ([] : Radix V4Key) _ hndp (by intro p _; simp)]
    simp
  have h2nd : (add_v4_block_to_radix
      ((fs.map (fun f => ((⟨f.addr, f.len⟩ : V4Key), i ++ [Field.int (f.used : Int)]))).map
        (fun p => (p.1, [p.2]))) a c i).1 =
      (fs.map (fun f => ((⟨f.addr, f.len⟩ : V4Key), i ++ [Field.int (f.used : Int)]))).map
        (fun p => (p.1, [p.2, p.2])) := by
    simp only [add_v4_block_to_radix, hfs]
    exact insertPairs_again _ hndp
  rw [h1st, h2nd]
  intro n hn
  simp only [List.mem_map] at hn
  obtain ⟨p, _, rfl⟩ := hn
  exact ⟨p.2, rfl⟩

/-- Witness for C4 at `start = 0`, `count = 2`, empty info tuple. -/
theorem c4_duplicate_record_witness :
    (1 ≤ (2 : Int) ∧ ((0 : Nat) : Int) + 2 < 2 ^ 32) ∧
    (∀ n ∈ (add_v4_block_to_radix
        (add_v4_block_to_radix ([] : Radix V4Key) 0 2 []).1 0 2 []).1,
      ∃ e, n.2 = [e, e]) :=
  ⟨by decide, c4_duplicate_record 0 2 [] (by decide) (by decide)⟩

/-! ### Claim C3 -/

/-- C3 (counterexample): the flattened row sequence is not independent of
ingestion order.  Two records from different registries that land on the
same prefix `10.0.0.0/24` attach to the same node, and the node's entries
keep insertion order, so swapping the two registries swaps the two rows. -/
theorem c3_order_independence_counterexample :
    v4Iterate (ingestAll ([], [])
      [SrcRec.v4 167772160 256 [Field.str "arin"],
       SrcRec.v4 167772160 256 [Field.str "ripencc"]]).1.1 ≠
    v4Iterate (ingestAll ([], [])
      [SrcRec.v4 167772160 256 [Field.str "ripencc"],
       SrcRec.v4 167772160 256 [Field.str "arin"]]).1.1 := by
  decide

/-- C3 (amended): for any two permutations of the same records (all of
which ingest without raising, so every record is processed), the flattened
row sequences obtained from trie iteration are permutations of each other
(the same multiset of rows); the sequences themselves can differ in the
order of entries within a shared prefix node, which follows ingestion
order. -/
theorem c3_order_independence (rs1 rs2 : List SrcRec) (hp : rs1.Perm rs2)
    (hok : ∀ r ∈ rs1, recErr r = false) :
    (v4Iterate (ingestAll ([], []) rs1).1.1).Perm
      (v4Iterate (ingestAll ([], []) rs2).1.1) ∧
    (v6Iterate (ingestAll ([], []) rs1).1.2).Perm
      (v6Iterate (ingestAll ([], []) rs2).1.2) := by
  have hok2 : ∀ r ∈ rs2, recErr r = false := fun r hr => hok r (hp.mem_iff.mpr hr)
  obtain ⟨_, h41, h61⟩ := ingestAll_spec ([], []) rs1 hok
  obtain ⟨_, h42, h62⟩ := ingestAll_spec ([], []) rs2 hok2
  simp only [nodePairs, List.nil_append] at h41 h61 h42 h62
  constructor
  · have s1 : (v4Iterate (ingestAll ([], []) rs1).1.1).Perm
        (nodePairs (ingestAll ([], []) rs1).1.1) :=
      nodePairs_perm_of_perm (sortNodes_perm v4KeyLe _)
    have s2 : (v4Iterate (ingestAll ([], []) rs2).1.1).Perm
        (nodePairs (ingestAll ([], []) rs2).1.1) :=
      nodePairs_perm_of_perm (sortNodes_perm v4KeyLe _)
    exact s1.trans (h41.trans ((concatPairs_map_perm recPairsV4 hp).trans
      (h42.symm.trans s2.symm)))
  · have s1 : (v6Iterate (ingestAll ([], []) rs1).1.2).Perm
        (nodePairs (ingestAll ([], []) rs1).1.2) :=
      nodePairs_perm_of_perm (sortNodes_perm v6KeyLe _)
    have s2 : (v6Iterate (ingestAll ([], []) rs2).1.2).Perm
        (nodePairs (ingestAll ([], []) rs2).1.2) :=
      nodePairs_perm_of_perm (sortNodes_perm v6KeyLe _)
    exact s1.trans (h61.trans ((concatPairs_map_perm recPairsV6 hp).trans
      (h62.symm.trans s2.symm)))

/-- Witness for C3 (amended): one IPv6 and one IPv4 record in both
orders. -/
theorem c3_order_independence_witness :
    (([SrcRec.v6 ⟨"2001:db8::", 32⟩ [], SrcRec.v4 0 1 []] : List SrcRec).Perm
        [SrcRec.v4 0 1 [], SrcRec.v6 ⟨"2001:db8::", 32⟩ []] ∧
      ∀ r ∈ ([SrcRec.v6 ⟨"2001:db8::", 32⟩ [], SrcRec.v4 0 1 []] : List SrcRec),
        recErr r = false) ∧
    ((v4Iterate (ingestAll ([], [])
        [SrcRec.v6 ⟨"2001:db8::", 32⟩ [], SrcRec.v4 0 1 []]).1.1).Perm
      (v4Iterate (ingestAll ([], [])
        [SrcRec.v4 0 1 [], SrcRec.v6 ⟨"2001:db8::", 32⟩ []]).1.1) ∧
     (v6Iterate (ingestAll ([], [])
        [SrcRec.v6 ⟨"2001:db8::", 32⟩ [], SrcRec.v4 0 1 []]).1.2).Perm
      (v6Iterate (ingestAll ([], [])
        [SrcRec.v4 0 1 [], SrcRec.v6 ⟨"2001:db8::", 32⟩ []]).1.2)) :=
  ⟨⟨List.Perm.swap (SrcRec.v4 0 1 []) (SrcRec.v6 ⟨"2001:db8::", 32⟩ []) [], by decide⟩,
    c3_order_independence _ _
      (List.Perm.swap (SrcRec.v4 0 1 []) (SrcRec.v6 ⟨"2001:db8::", 32⟩ []) [])
      (by decide)⟩

/-! ### Claim C7 -/

theorem bne_eq_not_decide {α : Type} [BEq α] [LawfulBEq α] [DecidableEq α] (a b : α) :
    (a != b) = !decide (a = b) := by
  by_cases h : a = b <;> simp [h]

theorem skip_cond_eq (fs : List String) :
    (decide (fs.length < 7) || (fs.getD 2 "" != "ipv4" && fs.getD 2 "" != "ipv6")) =
      !decide (7 ≤ fs.length ∧ (fs.getD 2 "" = "ipv4" ∨ fs.getD 2 "" = "ipv6")) := by
  rcases Nat.lt_or_ge fs.length 7 with h7 | h7
  · simp [h7, show ¬ 7 ≤ fs.length from by omega]
  · by_cases h4 : fs.getD 2 "" = "ipv4" <;> by_cases h6 : fs.getD 2 "" = "ipv6" <;>
      simp [h4, h6, h7, bne_eq_not_decide, show ¬ fs.length < 7 from by omega]

/-- C7: the parser processes a line (runs the record handling) iff
splitting the stripped line on `|` yields at least 7 fields whose third is
exactly `ipv4` or `ipv6`; every other line leaves the state untouched
(the source executes `continue`, raising nothing and touching neither
tree). -/
theorem c7_line_filter {σ : Type} (handle : List String → σ → σ) (st : σ)
    (line : String) :
    parseLineStep handle st line =
      if 7 ≤ (lineFields line).length ∧
          ((lineFields line).getD 2 "" = "ipv4" ∨ (lineFields line).getD 2 "" = "ipv6")
      then handle (lineFields line) st
      else st := by
  unfold parseLineStep
  rw [skip_cond_eq (lineFields line)]
  by_cases h : 7 ≤ (lineFields line).length ∧
      ((lineFields line).getD 2 "" = "ipv4" ∨ (lineFields line).getD 2 "" = "ipv6")
  · rw [decide_eq_true h, if_pos h]
    simp
  · rw [decide_eq_false h, if_neg h]
    simp

/-! ### Claim C8 -/

/-- C8: output row field order.  Given the `prefix_info` tuple built by the
parser (with the per-fragment `used_addrcount` appended for IPv4), the row
written by `main` lists, in order: prefix, registry, modification date,
country code, status (and, for IPv4, the original block start and the
original block address count).  The two index/variable swaps in `main`
(`date = info[1]`, `country = info[2]`, then `...format(prefix, rir,
country, date, ...)`) cancel, so the columns match the written header. -/
theorem c8_row_order (pfx registry country date status blockStart : String)
    (blockCount : Int) (used : Nat) :
    v4Row pfx (prefix_info registry country date status blockStart blockCount ++
        [Field.int (used : Int)]) =
      [Field.str pfx, Field.str registry, Field.str date, Field.str country,
       Field.str status, Field.str blockStart, Field.int blockCount] ∧
    v6Row pfx (prefix_info registry country date status blockStart blockCount) =
      [Field.str pfx, Field.str registry, Field.str date, Field.str country,
       Field.str status] :=
  ⟨rfl, rfl⟩

/-! ### Claim C9 -/

/-- C9 (counterexample): the entry attached to an IPv6 node does not
consist of exactly the four fields (registry, country_code, modified_date,
status): the source attaches the full six-field `prefix_info` tuple, which
also carries the block start and the prefix length. -/
theorem c9_v6_entry_counterexample :
    add_prefix_to_radix ([] : Radix V6Key) ⟨"2001:db8::", 32⟩
        (prefix_info "ripencc" "NL" "20200101" "allocated" "2001:db8::" 32) =
      [(⟨"2001:db8::", 32⟩,
        [[Field.str "ripencc", Field.str "NL", Field.str "20200101",
          Field.str "allocated", Field.str "2001:db8::", Field.int 32]])] ∧
    (prefix_info "ripencc" "NL" "20200101" "allocated" "2001:db8::" 32).length ≠ 4 := by
  exact ⟨by decide, by decide⟩

/-- C9 (amended): for every ingested IPv6 record, exactly one prefix built
directly from the record's start address and prefix length is inserted,
with no decomposition, and the attached entry is the six-field tuple
(registry, country_code, modified_date, status, block_start, block_size);
the output row later uses only the first four of these. -/
theorem c9_v6_entry (t : Radix V6Key) (registry country date status addr : String)
    (len : Int) (h : (⟨addr, len⟩ : V6Key) ∉ t.map Prod.fst) :
    add_prefix_to_radix t ⟨addr, len⟩
        (prefix_info registry country date status addr len) =
      t ++ [(⟨addr, len⟩,
        [[Field.str registry, Field.str country, Field.str date,
          Field.str status, Field.str addr, Field.int len]])] :=
  add_pfx_absent t _ _ h

/-- Witness for C9 (amended) on the empty IPv6 tree. -/
theorem c9_v6_entry_witness :
    ((⟨"2001:db8::", 48⟩ : V6Key) ∉ (([] : Radix V6Key)).map Prod.fst) ∧
    add_prefix_to_radix ([] : Radix V6Key) ⟨"2001:db8::", 48⟩
        (prefix_info "ripencc" "NL" "20200101" "allocated" "2001:db8::" 48) =
      ([] : Radix V6Key) ++ [(⟨"2001:db8::", 48⟩,
        [[Field.str "ripencc", Field.str "NL", Field.str "20200101",
          Field.str "allocated", Field.str "2001:db8::", Field.int 48]])] :=
  ⟨by decide, c9_v6_entry [] "ripencc" "NL" "20200101" "allocated" "2001:db8::" 48
    (by decide)⟩

end NroStats
